import Mathlib

/-!
Verification development for the SSV node repository.

Each Go function under scrutiny is shallowly embedded as a Lean definition:

* `msgqueue` — the message broker (`ibft/msgqueue`): multi-index in-memory
  queue with `AddMessage`, `PopMessage`, `MessagesForIndex`,
  `DeleteMessagesWithIds`, `deleteMessageFromAllIndexes` and
  `PurgeIndexedMessages`.  Go maps become functions with pointwise update,
  message payloads are abstracted to `Nat`, uuids to `String`.
* `eth1` — the registry synchronizer (`eth1/sync.go`): `determineSyncOffset`,
  `upgradeSyncOffset` and a single invocation of `SyncEth1Events` whose
  tail-recursive re-entry is reified as an outcome constructor.
* `validatorstorage` — the share model and store
  (`validator/storage/share.go`, `validator/storage/storage.go`).  BLS keys
  are modelled by their serialized bytes and the gob codec by the record it
  encodes (both live outside this repository and are assumed faithful).
* `p2p` — the peer wait loop (`network/p2p`, package `commons`):
  `WaitForMinPeers` and its backoff interval update.
-/

namespace SSV

namespace msgqueue

/-- Embeds `messageContainer`: `{id string; msg *network.Message; indexes []string}`.
The message payload is abstracted to a `Nat`. -/
structure MessageContainer where
  id : String
  msg : Nat
  indexes : List String
deriving DecidableEq

/-- Embeds the mutable part of `MessageQueue`: `queue map[string][]messageContainer`
and `allMessages map[string]messageContainer`.  A missing map entry is the
empty bucket, respectively `none`. -/
structure MessageQueue where
  queue : String → List MessageContainer
  allMessages : String → Option MessageContainer

/-- Embeds `New()`: both maps start empty. -/
def emptyQueue : MessageQueue :=
  { queue := fun _ => [], allMessages := fun _ => none }

/-- One step of the `for _, idx := range indexes` loop of `AddMessage`:
`q.queue[idx] = append(q.queue[idx], msgContainer)`. -/
def appendTo (f : String → List MessageContainer) (idx : String)
    (c : MessageContainer) : String → List MessageContainer :=
  fun k => if k = idx then f k ++ [c] else f k

/-- The whole append loop of `AddMessage` over the computed index list. -/
def bucketAppend (f : String → List MessageContainer) (idxs : List String)
    (c : MessageContainer) : String → List MessageContainer :=
  idxs.foldl (fun g i => appendTo g i c) f

/-- Embeds `AddMessage`.  `indexes` stands for the concatenated output of the
queue's index functions on `msg` (the index functions live in a separate file
of the package); `id` stands for the fresh `uuid.New()`.  The container is
appended to the bucket of every computed index and stored in `allMessages`
unconditionally. -/
def addMessage (id : String) (msg : Nat) (indexes : List String)
    (q : MessageQueue) : MessageQueue :=
  let c : MessageContainer := ⟨id, msg, indexes⟩
  { queue := bucketAppend q.queue indexes c,
    allMessages := fun k => if k = id then some c else q.allMessages k }

/-- One step of the loop of `deleteMessageFromAllIndexes`: rebuild the bucket
of `idx` keeping only containers whose id differs from `id`. -/
def removeFrom (f : String → List MessageContainer) (idx : String)
    (id : String) : String → List MessageContainer :=
  fun k => if k = idx then (f k).filter (fun c => c.id ≠ id) else f k

/-- Embeds `deleteMessageFromAllIndexes(indexes, id)`: filter `id` out of every
bucket named in `indexes`, then `delete(q.allMessages, id)`. -/
def deleteMessageFromAllIndexes (indexes : List String) (id : String)
    (q : MessageQueue) : MessageQueue :=
  { queue := indexes.foldl (fun g i => removeFrom g i id) q.queue,
    allMessages := fun k => if k = id then none else q.allMessages k }

/-- Embeds `PopMessage(index)`: if the bucket is non-empty, take its first
container, delete it from all its indexes, and return its message; otherwise
return nothing and leave the queue unchanged. -/
def popMessage (index : String) (q : MessageQueue) :
    Option Nat × MessageQueue :=
  match q.queue index with
  | [] => (none, q)
  | c :: _ => (some c.msg, deleteMessageFromAllIndexes c.indexes c.id q)

/-- Embeds `MessagesForIndex(index)`: the `{id → msg}` snapshot of one bucket,
modelled as the association list read off the bucket. -/
def messagesForIndex (index : String) (q : MessageQueue) :
    List (String × Nat) :=
  (q.queue index).map (fun c => (c.id, c.msg))

/-- Embeds `MsgCount(index)`. -/
def msgCount (index : String) (q : MessageQueue) : Nat :=
  (q.queue index).length

/-- Embeds `DeleteMessagesWithIds(ids)`: for each id found in `allMessages`,
delete it from all the indexes recorded in its container. -/
def deleteMessagesWithIds (ids : List String) (q : MessageQueue) :
    MessageQueue :=
  ids.foldl
    (fun q id =>
      match q.allMessages id with
      | some c => deleteMessageFromAllIndexes c.indexes id q
      | none => q)
    q

/-- Embeds `PurgeIndexedMessages(index)`:
`q.queue[index] = make([]messageContainer, 0)` — only the one bucket is
replaced by the empty bucket. -/
def purgeIndexedMessages (index : String) (q : MessageQueue) : MessageQueue :=
  { q with queue := fun k => if k = index then [] else q.queue k }

/-- The bucket of `idx` induced by a list of containers in addition order:
each container contributes one copy per occurrence of `idx` in its index
list, mirroring the append loop of `AddMessage`. -/
def fullBucket (idx : String) : List MessageContainer → List MessageContainer
  | [] => []
  | c :: l => List.replicate (c.indexes.count idx) c ++ fullBucket idx l

/-- Like `fullBucket` but keeping only containers that are live in the id
lookup `a` (present and mapped to themselves). -/
def liveBucket (a : String → Option MessageContainer) (idx : String) :
    List MessageContainer → List MessageContainer
  | [] => []
  | c :: l =>
    (if a c.id = some c then List.replicate (c.indexes.count idx) c else []) ++
      liveBucket a idx l

/-- States of the broker reachable from `New()`, indexed by the list of
containers ever added (in order).  The flag `purgeAllowed` admits
`PurgeIndexedMessages` steps; the flag `nonemptyIndexes` restricts additions
to messages whose index functions produced at least one key.  The freshness
hypothesis on `add` models `uuid.New()`. -/
inductive ReachableW :
    Bool → Bool → List MessageContainer → MessageQueue → Prop where
  | empty {p ne : Bool} : ReachableW p ne [] emptyQueue
  | add {p ne : Bool} {l : List MessageContainer} {q : MessageQueue}
      (id : String) (msg : Nat) (indexes : List String) :
      ReachableW p ne l q → (∀ c ∈ l, c.id ≠ id) →
      (ne = true → indexes ≠ []) →
      ReachableW p ne (l ++ [⟨id, msg, indexes⟩]) (addMessage id msg indexes q)
  | pop {p ne : Bool} {l : List MessageContainer} {q : MessageQueue}
      (index : String) :
      ReachableW p ne l q → ReachableW p ne l (popMessage index q).2
  | deleteIds {p ne : Bool} {l : List MessageContainer} {q : MessageQueue}
      (ids : List String) :
      ReachableW p ne l q → ReachableW p ne l (deleteMessagesWithIds ids q)
  | purge {p ne : Bool} {l : List MessageContainer} {q : MessageQueue}
      (index : String) :
      p = true → ReachableW p ne l q →
      ReachableW p ne l (purgeIndexedMessages index q)

end msgqueue

namespace eth1

/-- Value of one hexadecimal digit, as accepted by `big.Int.SetString(s, 16)`. -/
def hexCharVal (c : Char) : Option Nat :=
  if '0' ≤ c ∧ c ≤ '9' then some (c.toNat - '0'.toNat)
  else if 'a' ≤ c ∧ c ≤ 'f' then some (c.toNat - 'a'.toNat + 10)
  else if 'A' ≤ c ∧ c ≤ 'F' then some (c.toNat - 'A'.toNat + 10)
  else none

/-- Embeds `HexStringToSyncOffset`: `nil` on the empty string, otherwise the
base-16 value of the string.  The `*SyncOffset` pointer is modelled as
`Option Nat` (`none` = nil pointer). -/
def hexStringToSyncOffset (shex : String) : Option Nat :=
  if shex.length = 0 then none
  else
    shex.data.foldl
      (fun acc c =>
        match acc, hexCharVal c with
        | some n, some v => some (16 * n + v)
        | _, _ => none)
      (some 0)

/-- Embeds `DefaultSyncOffset()`: the parsed `defaultSyncOffset` constant
string `"4e706f"` (the production contract genesis block). -/
def defaultSyncOffset : Option Nat :=
  hexStringToSyncOffset "4e706f"

/-- Embeds `determineSyncOffset`.  `stored` models the
`(offset, found, err)` triple of `GetSyncOffset`: `none` = not found,
`some none` = found but nil, `some (some v)` = found with value `v`;
`getErr` models a non-nil `err` (only logged by the source).  Priority:
stored offset, then the provided one, then the default constant. -/
def determineSyncOffset (stored : Option (Option Nat)) (getErr : Bool)
    (provided : Option Nat) : Option Nat :=
  match stored with
  | some (some v) => some v
  | _ =>
    match provided with
    | some p => some p
    | none => defaultSyncOffset

/-- Embeds `SyncEndedEvent`: the block numbers of `Logs` and the `Success`
flag. -/
structure SyncEndedEvent where
  logs : List Nat
  success : Bool
deriving DecidableEq

/-- Observable effect of `upgradeSyncOffset`: whether `SaveSyncOffset` was
invoked, the offset it durably stored (`none` when nothing was persisted),
and whether an error was returned. -/
structure UpgradeResult where
  saveCalled : Bool
  savedOffset : Option Nat
  errored : Bool
deriving DecidableEq

/-- Embeds `upgradeSyncOffset`: with a non-empty log list, a successful sync
and a last block number above the current offset, save that block number as
the new offset (`saveOk` models `SaveSyncOffset` not failing); in every
other case do nothing and return no error. -/
def upgradeSyncOffset (saveOk : Bool) (syncOffset : Nat)
    (ev : SyncEndedEvent) : UpgradeResult :=
  match ev.logs.getLast? with
  | none => ⟨false, none, false⟩
  | some rawOffset =>
    if ev.success = false then ⟨false, none, false⟩
    else if syncOffset < rawOffset then
      (if saveOk then ⟨true, some rawOffset, false⟩ else ⟨true, none, true⟩)
    else ⟨false, none, false⟩

/-- Outcome of a single invocation of `SyncEth1Events`.  The source function
is tail-recursive; `recursed offset` reifies the single re-entrant call
`return SyncEth1Events(..., syncOffset, ...)` together with the offset
argument it passes. -/
inductive SyncOutcome where
  | regFailed
  | syncFailed
  | handlerFailed
  | recursed (offset : Option Nat)
  | upgraded (r : UpgradeResult)
deriving DecidableEq

/-- Inputs of a single invocation of `SyncEth1Events`, with the external
collaborators (event subject, eth1 client, storage, execution queue)
abstracted to their observed answers: `regOk` = subject registration
succeeded, `stored`/`getErr` = answer of `GetSyncOffset`, `provided` = the
`syncOffset` argument, `syncOk` = `client.Sync` returned no error,
`handlerErrs` = the errors accumulated by the execution queue,
`ended` = the terminal `SyncEndedEvent`, `currentBlock` = answer of
`client.CurrentBlock()` (`none` = error), `saveOk` = `SaveSyncOffset`
does not fail. -/
structure SyncInput where
  regOk : Bool
  stored : Option (Option Nat)
  getErr : Bool
  provided : Option Nat
  syncOk : Bool
  handlerErrs : List String
  ended : SyncEndedEvent
  currentBlock : Option Nat
  saveOk : Bool

/-- Embeds one invocation of `SyncEth1Events`, in source order: registration,
`determineSyncOffset`, `client.Sync`, drain, the aggregated handler-error
check, the current-block re-entry check, then `upgradeSyncOffset`. -/
def syncEth1Events (i : SyncInput) : SyncOutcome :=
  if i.regOk = false then .regFailed
  else
    let syncOffset := determineSyncOffset i.stored i.getErr i.provided
    if i.syncOk = false then .syncFailed
    else if 0 < i.handlerErrs.length then .handlerFailed
    else
      match i.currentBlock with
      | some current =>
        if syncOffset.getD 0 < current then .recursed syncOffset
        else .upgraded (upgradeSyncOffset i.saveOk (syncOffset.getD 0) i.ended)
      | none => .upgraded (upgradeSyncOffset i.saveOk (syncOffset.getD 0) i.ended)

end eth1

namespace validatorstorage

/-- Embeds `proto.Node` as used by the share model: ibft id, public-key bytes
and (optional, possibly empty) secret-key bytes. -/
structure Node where
  ibftId : Nat
  pk : List Nat
  sk : List Nat
deriving DecidableEq

/-- Modelled from the spec: `beacon.ValidatorMetadata` is not under `src/`;
§3 of the spec gives its fields as `{index, status, activation_epoch,
balance}`.  Its content is carried opaquely by the functions verified here. -/
structure ValidatorMetadata where
  index : Nat
  status : Nat
  activationEpoch : Nat
  balance : Nat
deriving DecidableEq

/-- Embeds `Share`.  The BLS `PublicKey` and `SecretKey` pointers are
modelled by their serialized bytes; the empty list models the zero
`bls.SecretKey{}` used when no share key is stored.  `Committee` is an
association list from operator id to node. -/
structure Share where
  nodeID : Nat
  publicKey : List Nat
  shareKey : List Nat
  committee : List (Nat × Node)
  metadata : Option ValidatorMetadata
deriving DecidableEq

/-- Embeds `CommitteeSize()`. -/
def Share.committeeSize (s : Share) : Nat :=
  s.committee.length

/-- Embeds `ThresholdSize()`: `int(math.Ceil(float64(n) * 2 / 3))`.  The
float64 computation is exact for every committee size below `2^52`, so the
exact rational ceiling is the faithful value. -/
def Share.thresholdSize (s : Share) : Int :=
  Int.ceil ((s.committeeSize : ℚ) * 2 / 3)

/-- Embeds `PartialThresholdSize()`: `int(math.Ceil(float64(n) * 1 / 3))`,
modelled by the exact rational ceiling as for `Share.thresholdSize`. -/
def Share.partialThresholdSize (s : Share) : Int :=
  Int.ceil ((s.committeeSize : ℚ) * 1 / 3)

/-- Embeds `serializedShare`: the record written by `Share.Serialize` (no
public key — that is the storage key). -/
structure SerializedShare where
  nodeID : Nat
  shareKey : List Nat
  committee : List (Nat × Node)
  metadata : Option ValidatorMetadata
deriving DecidableEq

/-- Embeds `basedb.Obj`: the stored key/value pair.  The gob byte encoding of
`serializedShare` is modelled by the record itself (gob is an external,
faithful codec). -/
structure Obj where
  key : List Nat
  value : SerializedShare
deriving DecidableEq

/-- Embeds `Share.Serialize()`: build a `serializedShare` with the share-key
bytes and a by-value copy of the committee (`&proto.Node{IbftId:…, Pk:…,
Sk:…}` per entry). -/
def Share.serialize (s : Share) : SerializedShare :=
  { nodeID := s.nodeID,
    shareKey := s.shareKey,
    committee := s.committee.map (fun kn => (kn.1, ⟨kn.2.ibftId, kn.2.pk, kn.2.sk⟩)),
    metadata := s.metadata }

/-- Embeds `Share.Deserialize(obj)`: decode the value record, recover the
share secret only when the stored bytes are non-empty (otherwise the zero
key), and take the public key from the storage key. -/
def Share.deserialize (obj : Obj) : Option Share :=
  let value := obj.value
  let shareSecret : List Nat :=
    if value.shareKey.length > 0 then value.shareKey else []
  some
    { nodeID := value.nodeID,
      publicKey := obj.key,
      shareKey := shareSecret,
      committee := value.committee,
      metadata := value.metadata }

/-- The backing key-value store under the `share-` collection prefix, keyed
by serialized public key. -/
def DB : Type :=
  List Nat → Option SerializedShare

/-- Embeds `saveUnsafe`: `db.Set(collectionPrefix(), share.PublicKey.Serialize(),
share.Serialize())`. -/
def saveUnsafe (db : DB) (share : Share) : DB :=
  fun k => if k = share.publicKey then some share.serialize else db k

/-- Embeds `getUnsafe`: fetch the stored pair at `key` and deserialize it
(`none` = not found). -/
def getUnsafe (db : DB) (key : List Nat) : Option Share :=
  match db key with
  | none => none
  | some v => Share.deserialize ⟨key, v⟩

/-- Embeds `GetValidatorShare` (the lock adds nothing to the sequential
model). -/
def getValidatorShare (db : DB) (key : List Nat) : Option Share :=
  getUnsafe db key

/-- Embeds `UpdateValidatorMetadata(pk, metadata)` after the hex decoding of
`pk` into `key`: look the share up; when absent return success without
touching the store; otherwise overwrite the share with the new metadata. -/
def updateValidatorMetadata (db : DB) (key : List Nat)
    (metadata : Option ValidatorMetadata) : DB :=
  match getUnsafe db key with
  | none => db
  | some share => saveUnsafe db { share with metadata := metadata }

end validatorstorage

namespace p2p

/-- Embeds the interval update at the bottom of the retry loop of
`WaitForMinPeers`: `interval *= 2; if stopAtLimit && interval == limit
{ return error }; interval %= limit; if interval == 0 { interval = start }`.
`none` models the error return; durations are in nanoseconds. -/
def nextInterval (start limit interval : Nat) (stopAtLimit : Bool) :
    Option Nat :=
  let i := interval * 2
  if stopAtLimit = true ∧ i = limit then none
  else
    let i2 := i % limit
    some (if i2 = 0 then start else i2)

/-- The successive sleep intervals of `WaitForMinPeers` while peers stay
below the minimum: `waitIntervals start limit stop t` is the interval slept
on iteration `t` (`none` once the loop has returned the stop-at-limit
error). -/
def waitIntervals (start limit : Nat) (stop : Bool) : Nat → Option Nat
  | 0 => some start
  | t + 1 =>
    match waitIntervals start limit stop t with
    | none => none
    | some prev => nextInterval start limit prev stop

/-- Result of the retry loop of `WaitForMinPeers` over a finite schedule of
observed peer counts. -/
inductive WaitResult where
  | ok
  | errLimit
  | waiting (interval : Nat)
deriving DecidableEq

/-- Embeds the loop of `WaitForMinPeers` driven by the successive answers of
`haveMinPeers` (one peer count per iteration; the context is never
cancelled).  `waiting i` reports the current interval when the schedule
runs out with the node still waiting. -/
def waitForMinPeers (minPeers : Nat) (start limit : Nat) (stop : Bool) :
    List Nat → Nat → WaitResult
  | [], interval => .waiting interval
  | n :: rest, interval =>
    if minPeers ≤ n then .ok
    else
      match nextInterval start limit interval stop with
      | none => .errLimit
      | some i2 => waitForMinPeers minPeers start limit stop rest i2

end p2p

namespace msgqueue

/-- Pointwise reading of the append loop of `AddMessage`: the bucket of `k`
gains one copy of the container per occurrence of `k` in the index list, at
the end of the bucket. -/
theorem bucketAppend_apply (idxs : List String)
    (f : String → List MessageContainer) (c : MessageContainer) (k : String) :
    bucketAppend f idxs c k = f k ++ List.replicate (idxs.count k) c := by
  induction idxs generalizing f with
  | nil => simp [bucketAppend]
  | cons i rest ih =>
    rw [show bucketAppend f (i :: rest) c = bucketAppend (appendTo f i c) rest c from rfl]
    rw [ih]
    by_cases h : k = i
    · subst h
      simp [appendTo, List.count_cons, List.append_assoc, List.replicate_succ]
    · simp [appendTo, h, List.count_cons, Ne.symm h]

/-- Effect of `AddMessage` on one bucket. -/
theorem addMessage_queue_apply (id : String) (msg : Nat) (indexes : List String)
    (q : MessageQueue) (k : String) :
    (addMessage id msg indexes q).queue k =
      q.queue k ++ List.replicate (indexes.count k) ⟨id, msg, indexes⟩ :=
  bucketAppend_apply indexes q.queue ⟨id, msg, indexes⟩ k

/-- Effect of `AddMessage` on the id lookup. -/
theorem addMessage_allMessages_apply (id : String) (msg : Nat)
    (indexes : List String) (q : MessageQueue) (k : String) :
    (addMessage id msg indexes q).allMessages k =
      if k = id then some ⟨id, msg, indexes⟩ else q.allMessages k :=
  rfl

/-- Pointwise reading of the filtering fold shared by
`deleteMessageFromAllIndexes`. -/
theorem removeFold_apply (idxs : List String) (id : String)
    (f : String → List MessageContainer) (k : String) :
    (idxs.foldl (fun g i => removeFrom g i id) f) k =
      if k ∈ idxs then (f k).filter (fun c => c.id ≠ id) else f k := by
  induction idxs generalizing f with
  | nil => simp
  | cons i rest ih =>
    rw [List.foldl_cons, ih]
    by_cases hk : k = i
    · subst hk
      by_cases hr : k ∈ rest
      · simp [removeFrom, hr, List.filter_filter]
      · simp [removeFrom, hr]
    · by_cases hr : k ∈ rest <;> simp [removeFrom, hk, hr]

/-- Pointwise reading of the loop of `deleteMessageFromAllIndexes`: a bucket
named in `indexes` is filtered of the deleted id, every other bucket is left
alone. -/
theorem delete_queue_apply (indexes : List String) (id : String)
    (q : MessageQueue) (k : String) :
    (deleteMessageFromAllIndexes indexes id q).queue k =
      if k ∈ indexes then (q.queue k).filter (fun c => c.id ≠ id)
      else q.queue k :=
  removeFold_apply indexes id q.queue k

/-- Effect of `deleteMessageFromAllIndexes` on the id lookup. -/
theorem delete_allMessages_apply (indexes : List String) (id : String)
    (q : MessageQueue) (k : String) :
    (deleteMessageFromAllIndexes indexes id q).allMessages k =
      if k = id then none else q.allMessages k :=
  rfl

/-- Unfolding of one step of `DeleteMessagesWithIds`. -/
theorem deleteMessagesWithIds_cons (id : String) (rest : List String)
    (q : MessageQueue) :
    deleteMessagesWithIds (id :: rest) q =
      deleteMessagesWithIds rest
        (match q.allMessages id with
          | some c => deleteMessageFromAllIndexes c.indexes id q
          | none => q) :=
  rfl

/-- Effect of `PurgeIndexedMessages` on the buckets. -/
theorem purge_queue_apply (index : String) (q : MessageQueue) (k : String) :
    (purgeIndexedMessages index q).queue k =
      if k = index then [] else q.queue k :=
  rfl

/-- The add-order bucket distributes over concatenation of histories. -/
theorem fullBucket_append (idx : String) (l1 l2 : List MessageContainer) :
    fullBucket idx (l1 ++ l2) = fullBucket idx l1 ++ fullBucket idx l2 := by
  induction l1 with
  | nil => simp [fullBucket]
  | cons c l ih => simp [fullBucket, ih, List.append_assoc]

/-- The live bucket distributes over concatenation of histories. -/
theorem liveBucket_append (a : String → Option MessageContainer) (idx : String)
    (l1 l2 : List MessageContainer) :
    liveBucket a idx (l1 ++ l2) = liveBucket a idx l1 ++ liveBucket a idx l2 := by
  induction l1 with
  | nil => simp [liveBucket]
  | cons c l ih => simp [liveBucket, ih, List.append_assoc]

/-- The live bucket only looks at the lookup on the ids of the history. -/
theorem liveBucket_congr {a a2 : String → Option MessageContainer}
    {idx : String} {l : List MessageContainer}
    (h : ∀ c ∈ l, a c.id = a2 c.id) :
    liveBucket a idx l = liveBucket a2 idx l := by
  induction l with
  | nil => rfl
  | cons c l ih =>
    show (if a c.id = some c then _ else _) ++ _ = (if a2 c.id = some c then _ else _) ++ _
    rw [h c (List.mem_cons_self c l), ih (fun d hd => h d (List.mem_cons.mpr (Or.inr hd)))]

/-- Deleting an id from the lookup filters it out of every live bucket. -/
theorem liveBucket_delete (a : String → Option MessageContainer)
    (i0 idx : String) (l : List MessageContainer) :
    liveBucket (fun k => if k = i0 then none else a k) idx l =
      (liveBucket a idx l).filter (fun c => c.id ≠ i0) := by
  induction l with
  | nil => rfl
  | cons c l ih =>
    show (if (if c.id = i0 then none else a c.id) = some c then _ else _) ++ _ = _
    rw [show liveBucket a idx (c :: l) =
        (if a c.id = some c then List.replicate (c.indexes.count idx) c else []) ++
          liveBucket a idx l from rfl]
    rw [List.filter_append, ih]
    congr 1
    by_cases hc : c.id = i0
    · rw [if_pos hc, if_neg (show ¬(none : Option MessageContainer) = some c by simp)]
      by_cases ha : a c.id = some c
      · rw [if_pos ha, List.filter_replicate,
          if_neg (show ¬decide (c.id ≠ i0) = true by simp [hc])]
      · rw [if_neg ha]
        rfl
    · rw [if_neg hc]
      by_cases ha : a c.id = some c
      · rw [if_pos ha, List.filter_replicate,
          if_pos (show decide (c.id ≠ i0) = true by simp [hc])]
      · rw [if_neg ha]
        rfl

/-- Deleting a live container from the lookup does not change the live bucket
of an index it is not tagged with. -/
theorem liveBucket_delete_frame {a : String → Option MessageContainer}
    {c0 : MessageContainer} (h0 : a c0.id = some c0) {idx : String}
    (hidx : idx ∉ c0.indexes) (l : List MessageContainer) :
    liveBucket (fun k => if k = c0.id then none else a k) idx l =
      liveBucket a idx l := by
  induction l with
  | nil => rfl
  | cons c l ih =>
    show (if (if c.id = c0.id then none else a c.id) = some c then _ else _) ++ _ = _
    rw [show liveBucket a idx (c :: l) =
        (if a c.id = some c then List.replicate (c.indexes.count idx) c else []) ++
          liveBucket a idx l from rfl]
    rw [ih]
    congr 1
    by_cases hc : c.id = c0.id
    · rw [if_pos hc, if_neg (show ¬(none : Option MessageContainer) = some c by simp)]
      have hac : a c.id = some c0 := by rw [hc]; exact h0
      by_cases hcc : c0 = c
      · subst hcc
        rw [if_pos hac, List.count_eq_zero.mpr hidx]
        rfl
      · rw [if_neg (show ¬a c.id = some c by
          rw [hac]; exact fun he => hcc (Option.some.inj he))]
    · rw [if_neg hc]

/-- A live container tagged with an index is in that live bucket. -/
theorem mem_liveBucket_of {a : String → Option MessageContainer} {idx : String}
    {c : MessageContainer} {l : List MessageContainer}
    (hc : c ∈ l) (ha : a c.id = some c) (hi : idx ∈ c.indexes) :
    c ∈ liveBucket a idx l := by
  induction l with
  | nil => cases hc
  | cons d l ih =>
    show c ∈ (if a d.id = some d then _ else _) ++ _
    rw [List.mem_append]
    rcases List.mem_cons.mp hc with h | h
    · subst h
      left
      rw [if_pos ha]
      exact List.mem_replicate.mpr ⟨(List.count_pos_iff.mpr hi).ne', rfl⟩
    · exact Or.inr (ih h)

/-- Members of a live bucket are live, tagged with the index, and in the
history. -/
theorem of_mem_liveBucket {a : String → Option MessageContainer} {idx : String}
    {c : MessageContainer} {l : List MessageContainer}
    (h : c ∈ liveBucket a idx l) :
    a c.id = some c ∧ idx ∈ c.indexes ∧ c ∈ l := by
  induction l with
  | nil => cases h
  | cons d l ih =>
    rw [show liveBucket a idx (d :: l) =
        (if a d.id = some d then List.replicate (d.indexes.count idx) d else []) ++
          liveBucket a idx l from rfl, List.mem_append] at h
    rcases h with h | h
    · by_cases hd : a d.id = some d
      · rw [if_pos hd] at h
        obtain ⟨hn, rfl⟩ := List.mem_replicate.mp h
        exact ⟨hd, List.count_pos_iff.mp (Nat.pos_of_ne_zero hn),
          List.mem_cons_self _ _⟩
      · rw [if_neg hd] at h
        cases h
    · obtain ⟨h1, h2, h3⟩ := ih h
      exact ⟨h1, h2, List.mem_cons.mpr (Or.inr h3)⟩

/-- Deleting a container that the lookup holds under `id0` preserves the two
consistency facts between the lookup, the buckets and the addition history. -/
theorem delete_preserves_inv {l : List MessageContainer} {q : MessageQueue}
    {c0 : MessageContainer} {id0 : String}
    (ih1 : ∀ k c, q.allMessages k = some c → c.id = k ∧ c ∈ l)
    (ih2 : ∀ idx c, c ∈ q.queue idx →
      q.allMessages c.id = some c ∧ idx ∈ c.indexes ∧ c ∈ l)
    (ha0 : q.allMessages id0 = some c0) :
    (∀ k c, (deleteMessageFromAllIndexes c0.indexes id0 q).allMessages k = some c →
      c.id = k ∧ c ∈ l) ∧
    (∀ idx c, c ∈ (deleteMessageFromAllIndexes c0.indexes id0 q).queue idx →
      (deleteMessageFromAllIndexes c0.indexes id0 q).allMessages c.id = some c ∧
        idx ∈ c.indexes ∧ c ∈ l) := by
  constructor
  · intro k c hc
    rw [delete_allMessages_apply] at hc
    by_cases hk : k = id0
    · rw [if_pos hk] at hc
      cases hc
    · rw [if_neg hk] at hc
      exact ih1 k c hc
  · intro idx c hc
    rw [delete_queue_apply] at hc
    by_cases hi : idx ∈ c0.indexes
    · rw [if_pos hi] at hc
      obtain ⟨hmem, hne⟩ := List.mem_filter.mp hc
      have hne2 : c.id ≠ id0 := by simpa using hne
      obtain ⟨ha, hix, hml⟩ := ih2 idx c hmem
      refine ⟨?_, hix, hml⟩
      rw [delete_allMessages_apply, if_neg hne2]
      exact ha
    · rw [if_neg hi] at hc
      obtain ⟨ha, hix, hml⟩ := ih2 idx c hc
      have hne2 : c.id ≠ id0 := by
        intro he
        rw [he, ha0] at ha
        have hcc : c = c0 := (Option.some.inj ha).symm
        rw [hcc] at hix
        exact hi hix
      refine ⟨?_, hix, hml⟩
      rw [delete_allMessages_apply, if_neg hne2]
      exact ha

/-- `DeleteMessagesWithIds` preserves the two consistency facts. -/
theorem deleteIds_preserves_inv {l : List MessageContainer} (ids : List String) :
    ∀ q : MessageQueue,
      (∀ k c, q.allMessages k = some c → c.id = k ∧ c ∈ l) →
      (∀ idx c, c ∈ q.queue idx →
        q.allMessages c.id = some c ∧ idx ∈ c.indexes ∧ c ∈ l) →
      (∀ k c, (deleteMessagesWithIds ids q).allMessages k = some c →
        c.id = k ∧ c ∈ l) ∧
      (∀ idx c, c ∈ (deleteMessagesWithIds ids q).queue idx →
        (deleteMessagesWithIds ids q).allMessages c.id = some c ∧
          idx ∈ c.indexes ∧ c ∈ l) := by
  induction ids with
  | nil => exact fun q h1 h2 => ⟨h1, h2⟩
  | cons id rest ih =>
    intro q h1 h2
    rw [deleteMessagesWithIds_cons]
    cases haq : q.allMessages id with
    | none => exact ih q h1 h2
    | some c0 =>
      have hc0 : c0.id = id := (h1 id c0 haq).1
      obtain ⟨g1, g2⟩ := delete_preserves_inv h1 h2 haq
      exact ih _ g1 g2

/-- Any reachable broker state keeps the lookup and the buckets consistent:
an entry of the lookup is a container of the history stored under its own id,
and a container sitting in a bucket is live in the lookup, tagged with that
bucket's index, and part of the history. -/
theorem reachable_inv {p ne : Bool} {l : List MessageContainer}
    {q : MessageQueue} (h : ReachableW p ne l q) :
    (∀ k c, q.allMessages k = some c → c.id = k ∧ c ∈ l) ∧
    (∀ idx c, c ∈ q.queue idx →
      q.allMessages c.id = some c ∧ idx ∈ c.indexes ∧ c ∈ l) := by
  induction h with
  | empty =>
    refine ⟨?_, ?_⟩
    · intro k c hc
      exact absurd hc (by simp [emptyQueue])
    · intro idx c hc
      exact absurd hc (by simp [emptyQueue])
  | add id msg indexes h hfresh hne ih =>
    obtain ⟨ih1, ih2⟩ := ih
    constructor
    · intro k c hc
      rw [addMessage_allMessages_apply] at hc
      by_cases hk : k = id
      · rw [if_pos hk] at hc
        cases hc
        exact ⟨hk.symm, by simp⟩
      · rw [if_neg hk] at hc
        obtain ⟨g1, g2⟩ := ih1 k c hc
        exact ⟨g1, by simp [g2]⟩
    · intro idx c hc
      rw [addMessage_queue_apply] at hc
      rcases List.mem_append.mp hc with h1 | h1
      · obtain ⟨ha, hi, hm⟩ := ih2 idx c h1
        have hne2 : c.id ≠ id := hfresh c hm
        refine ⟨?_, hi, by simp [hm]⟩
        rw [addMessage_allMessages_apply, if_neg hne2]
        exact ha
      · obtain ⟨hn, rfl⟩ := List.mem_replicate.mp h1
        refine ⟨?_, List.count_pos_iff.mp (Nat.pos_of_ne_zero hn), by simp⟩
        rw [addMessage_allMessages_apply, if_pos rfl]
  | pop index h ih =>
    rename_i l2 q2
    obtain ⟨ih1, ih2⟩ := ih
    cases hq : q2.queue index with
    | nil =>
      have h2 : (popMessage index q2).2 = q2 := by simp [popMessage, hq]
      rw [h2]
      exact ⟨ih1, ih2⟩
    | cons c0 rest =>
      have h2 : (popMessage index q2).2 =
          deleteMessageFromAllIndexes c0.indexes c0.id q2 := by
        simp [popMessage, hq]
      rw [h2]
      have ha0 : q2.allMessages c0.id = some c0 :=
        (ih2 index c0 (by rw [hq]; exact List.mem_cons_self _ _)).1
      exact delete_preserves_inv ih1 ih2 ha0
  | deleteIds ids h ih =>
    obtain ⟨ih1, ih2⟩ := ih
    exact deleteIds_preserves_inv ids _ ih1 ih2
  | purge index hp h ih =>
    obtain ⟨ih1, ih2⟩ := ih
    constructor
    · intro k c hc
      exact ih1 k c hc
    · intro idx c hc
      rw [purge_queue_apply] at hc
      by_cases hi : idx = index
      · rw [if_pos hi] at hc
        cases hc
      · rw [if_neg hi] at hc
        exact ih2 idx c hc

/-- Every bucket of a reachable broker state is an order-preserving selection
from the add-order bucket of its history: buckets are FIFO in addition
order. -/
theorem reachable_queue_sublist {p ne : Bool} {l : List MessageContainer}
    {q : MessageQueue} (h : ReachableW p ne l q) :
    ∀ idx, (q.queue idx).Sublist (fullBucket idx l) := by
  induction h with
  | empty =>
    intro idx
    exact List.nil_sublist _
  | add id msg indexes h hfresh hne ih =>
    intro idx
    rw [addMessage_queue_apply, fullBucket_append]
    refine (ih idx).append ?_
    rw [show fullBucket idx [(⟨id, msg, indexes⟩ : MessageContainer)] =
        List.replicate (indexes.count idx) ⟨id, msg, indexes⟩ by
      simp [fullBucket]]
  | pop index h ih =>
    rename_i l2 q2
    intro idx
    cases hq : q2.queue index with
    | nil =>
      have h2 : (popMessage index q2).2 = q2 := by simp [popMessage, hq]
      rw [h2]
      exact ih idx
    | cons c0 rest =>
      have h2 : (popMessage index q2).2 =
          deleteMessageFromAllIndexes c0.indexes c0.id q2 := by
        simp [popMessage, hq]
      rw [h2, delete_queue_apply]
      by_cases hi : idx ∈ c0.indexes
      · rw [if_pos hi]
        exact (List.filter_sublist _).trans (ih idx)
      · rw [if_neg hi]
        exact ih idx
  | deleteIds ids h ih =>
    rename_i l2 q2
    clear h
    induction ids generalizing q2 with
    | nil => exact ih
    | cons id rest ihids =>
      intro idx
      rw [deleteMessagesWithIds_cons]
      cases haq : q2.allMessages id with
      | none => exact ihids ih idx
      | some c0 =>
        refine ihids (fun idx2 => ?_) idx
        rw [delete_queue_apply]
        by_cases hi : idx2 ∈ c0.indexes
        · rw [if_pos hi]
          exact (List.filter_sublist _).trans (ih idx2)
        · rw [if_neg hi]
          exact ih idx2
  | purge index hp h ih =>
    intro idx
    rw [purge_queue_apply]
    by_cases hi : idx = index
    · rw [if_pos hi]
      exact List.nil_sublist _
    · rw [if_neg hi]
      exact ih idx

/-- One deletion step preserves the exact live-bucket description of the
queue. -/
theorem delete_exact_step {l : List MessageContainer} {q : MessageQueue}
    {c0 : MessageContainer}
    (ih : ∀ idx, q.queue idx = liveBucket q.allMessages idx l)
    (ha0 : q.allMessages c0.id = some c0) :
    ∀ idx, (deleteMessageFromAllIndexes c0.indexes c0.id q).queue idx =
      liveBucket (deleteMessageFromAllIndexes c0.indexes c0.id q).allMessages
        idx l := by
  intro idx
  rw [delete_queue_apply]
  rw [show (deleteMessageFromAllIndexes c0.indexes c0.id q).allMessages =
      fun k => if k = c0.id then none else q.allMessages k from rfl]
  by_cases hi : idx ∈ c0.indexes
  · rw [if_pos hi, ih idx, ← liveBucket_delete]
  · rw [if_neg hi, ih idx, liveBucket_delete_frame ha0 hi]

/-- Without `PurgeIndexedMessages`, every bucket of a reachable broker state
is exactly the live part of the add-order bucket of its history. -/
theorem reachable_exact {p ne : Bool} {l : List MessageContainer}
    {q : MessageQueue} (h : ReachableW p ne l q) (hp : p = false) :
    ∀ idx, q.queue idx = liveBucket q.allMessages idx l := by
  induction h with
  | empty =>
    intro idx
    rfl
  | add id msg indexes h hfresh hne ih =>
    rename_i l2 q2
    intro idx
    have hfb := ih
    rw [addMessage_queue_apply, liveBucket_append, hfb idx]
    have hcongr : liveBucket q2.allMessages idx l2 =
        liveBucket (addMessage id msg indexes q2).allMessages idx l2 := by
      refine liveBucket_congr (fun c hcl => ?_)
      rw [addMessage_allMessages_apply, if_neg (hfresh c hcl)]
    rw [hcongr]
    congr 1
    rw [show liveBucket (addMessage id msg indexes q2).allMessages idx
        [(⟨id, msg, indexes⟩ : MessageContainer)] =
        (if (addMessage id msg indexes q2).allMessages id =
            some ⟨id, msg, indexes⟩ then
          List.replicate (indexes.count idx) (⟨id, msg, indexes⟩ : MessageContainer)
        else []) ++ [] from rfl]
    rw [addMessage_allMessages_apply, if_pos rfl, if_pos rfl, List.append_nil]
  | pop index h ih =>
    rename_i l2 q2
    cases hq : q2.queue index with
    | nil =>
      have h2 : (popMessage index q2).2 = q2 := by simp [popMessage, hq]
      rw [h2]
      exact ih
    | cons c0 rest =>
      have h2 : (popMessage index q2).2 =
          deleteMessageFromAllIndexes c0.indexes c0.id q2 := by
        simp [popMessage, hq]
      rw [h2]
      have ha0 : q2.allMessages c0.id = some c0 :=
        ((reachable_inv h).2 index c0 (by rw [hq]; exact List.mem_cons_self _ _)).1
      exact delete_exact_step ih ha0
  | deleteIds ids h ih =>
    rename_i l2 q2
    have hinv := reachable_inv h
    have hfb := ih
    clear ih
    induction ids generalizing q2 with
    | nil => exact hfb
    | cons id rest ihids =>
      rw [deleteMessagesWithIds_cons]
      cases haq : q2.allMessages id with
      | none => exact ihids h hinv hfb
      | some c0 =>
        have hc0 : c0.id = id := (hinv.1 id c0 haq).1
        subst hc0
        have hstep := delete_exact_step hfb haq
        obtain ⟨g1, g2⟩ := delete_preserves_inv hinv.1 hinv.2 haq
        have hder : ReachableW p ne l2
            (deleteMessageFromAllIndexes c0.indexes c0.id q2) := by
          have h1 := ReachableW.deleteIds [c0.id] h
          rw [deleteMessagesWithIds_cons, haq] at h1
          exact h1
        exact ihids hder ⟨g1, g2⟩ hstep
  | purge index hp2 h ih =>
    rw [hp] at hp2
    cases hp2

/-- Every container added to a reachable broker with the nonempty-index
restriction carries at least one index key. -/
theorem reachable_nonempty_indexes {p ne : Bool} {l : List MessageContainer}
    {q : MessageQueue} (h : ReachableW p ne l q) (hne : ne = true) :
    ∀ c ∈ l, c.indexes ≠ [] := by
  induction h with
  | empty =>
    intro c hc
    cases hc
  | add id msg indexes h hfresh hne2 ih =>
    intro c hc
    rcases List.mem_append.mp hc with h1 | h1
    · exact ih c h1
    · have : c = ⟨id, msg, indexes⟩ := by simpa using h1
      rw [this]
      exact hne2 hne
  | pop index h ih => exact ih
  | deleteIds ids h ih => exact ih
  | purge index hp h ih => exact ih

/-- C1: `PurgeIndexedMessages(i)` empties exactly the bucket of `i`: every
other bucket and the id lookup are untouched, so a message indexed under both
`i` and `j` stays visible through `MessagesForIndex(j)` and, when it is at
the head of bucket `j`, `PopMessage(j)` still returns it. -/
theorem purge_isolates_bucket (q : MessageQueue) (i j : String)
    (c : MessageContainer) (hij : i ≠ j) (hi : i ∈ c.indexes)
    (hj : j ∈ c.indexes) (hcq : c ∈ q.queue j) :
    (purgeIndexedMessages i q).queue i = [] ∧
    (∀ k, k ≠ i → (purgeIndexedMessages i q).queue k = q.queue k) ∧
    (purgeIndexedMessages i q).allMessages = q.allMessages ∧
    (c.id, c.msg) ∈ messagesForIndex j (purgeIndexedMessages i q) ∧
    (∀ rest, q.queue j = c :: rest →
      (popMessage j (purgeIndexedMessages i q)).1 = some c.msg) := by
  have hqj : (purgeIndexedMessages i q).queue j = q.queue j := by
    rw [purge_queue_apply, if_neg (fun he => hij he.symm)]
  refine ⟨?_, ?_, rfl, ?_, ?_⟩
  · rw [purge_queue_apply, if_pos rfl]
  · intro k hk
    rw [purge_queue_apply, if_neg hk]
  · rw [show messagesForIndex j (purgeIndexedMessages i q) =
        ((purgeIndexedMessages i q).queue j).map (fun d => (d.id, d.msg)) from
      rfl, hqj]
    exact List.mem_map.mpr ⟨c, hcq, rfl⟩
  · intro rest hrest
    have hql : (purgeIndexedMessages i q).queue j = c :: rest := by
      rw [hqj, hrest]
    simp [popMessage, hql]

/-- Witness for C1 at a concrete broker holding one doubly-indexed message. -/
theorem purge_isolates_bucket_witness :
    ("a", 3) ∈ messagesForIndex "j"
      (purgeIndexedMessages "i" (addMessage "a" 3 ["i", "j"] emptyQueue)) ∧
    (purgeIndexedMessages "i" (addMessage "a" 3 ["i", "j"] emptyQueue)).queue
      "i" = [] := by
  have h := purge_isolates_bucket (addMessage "a" 3 ["i", "j"] emptyQueue)
    "i" "j" ⟨"a", 3, ["i", "j"]⟩ (by decide) (by decide) (by decide) (by decide)
  exact ⟨h.2.2.2.1, h.1⟩

/-- C2: on a reachable broker, `PopMessage(idx)` returns nothing exactly when
the bucket of `idx` is empty; otherwise it returns the message of the first
container of that bucket — the oldest still present, the bucket being an
addition-ordered selection of containers tagged with `idx` — and afterwards
that container is gone from every bucket named in its index set and from the
id lookup, with all other buckets and lookup entries untouched. -/
theorem pop_fifo_and_removal (p ne : Bool) (l : List MessageContainer)
    (q : MessageQueue) (h : ReachableW p ne l q) (idx : String) :
    (q.queue idx = [] → popMessage idx q = (none, q)) ∧
    ((popMessage idx q).1 = none → q.queue idx = []) ∧
    (∀ c rest, q.queue idx = c :: rest →
      idx ∈ c.indexes ∧
      (c :: rest).Sublist (fullBucket idx l) ∧
      popMessage idx q =
        (some c.msg, deleteMessageFromAllIndexes c.indexes c.id q) ∧
      (∀ j, j ∈ c.indexes → ∀ d, d ∈ (popMessage idx q).2.queue j →
        d.id ≠ c.id) ∧
      (popMessage idx q).2.allMessages c.id = none ∧
      (∀ j, j ∉ c.indexes → (popMessage idx q).2.queue j = q.queue j) ∧
      (∀ k, k ≠ c.id → (popMessage idx q).2.allMessages k =
        q.allMessages k)) := by
  refine ⟨?_, ?_, ?_⟩
  · intro hq
    simp [popMessage, hq]
  · intro hv
    cases hq : q.queue idx with
    | nil => rfl
    | cons c rest =>
      simp [popMessage, hq] at hv
  · intro c rest hq
    have hmem : c ∈ q.queue idx := by
      rw [hq]
      exact List.mem_cons_self _ _
    obtain ⟨ha, hix, hml⟩ := (reachable_inv h).2 idx c hmem
    have hsub := reachable_queue_sublist h idx
    rw [hq] at hsub
    have hpop : popMessage idx q =
        (some c.msg, deleteMessageFromAllIndexes c.indexes c.id q) := by
      simp [popMessage, hq]
    have h2 : (popMessage idx q).2 =
        deleteMessageFromAllIndexes c.indexes c.id q := by
      rw [hpop]
    refine ⟨hix, hsub, hpop, ?_, ?_, ?_, ?_⟩
    · intro j hj d hd
      rw [h2, delete_queue_apply, if_pos hj] at hd
      simpa using (List.mem_filter.mp hd).2
    · rw [h2, delete_allMessages_apply, if_pos rfl]
    · intro j hj
      rw [h2, delete_queue_apply, if_neg hj]
    · intro k hk
      rw [h2, delete_allMessages_apply, if_neg hk]

/-- Witness for C2: two messages added under index `x`; popping returns the
first and erases it from the lookup. -/
theorem pop_fifo_and_removal_witness :
    (popMessage "x"
      (addMessage "b" 7 ["x"] (addMessage "a" 1 ["x"] emptyQueue))).1 =
        some 1 ∧
    (popMessage "x"
      (addMessage "b" 7 ["x"] (addMessage "a" 1 ["x"] emptyQueue))).2.allMessages
        "a" = none := by
  have hder : ReachableW false false
      ([] ++ [⟨"a", 1, ["x"]⟩] ++ [⟨"b", 7, ["x"]⟩])
      (addMessage "b" 7 ["x"] (addMessage "a" 1 ["x"] emptyQueue)) :=
    ReachableW.add "b" 7 ["x"]
      (ReachableW.add "a" 1 ["x"] ReachableW.empty (by decide) (by decide))
      (by decide) (by decide)
  have h := pop_fifo_and_removal false false _ _ hder "x"
  have hq : (addMessage "b" 7 ["x"] (addMessage "a" 1 ["x"] emptyQueue)).queue
      "x" = [⟨"a", 1, ["x"]⟩, ⟨"b", 7, ["x"]⟩] := by decide
  obtain ⟨-, -, h3⟩ := h
  obtain ⟨-, -, hpop, -, hAM, -, -⟩ :=
    h3 ⟨"a", 1, ["x"]⟩ [⟨"b", 7, ["x"]⟩] hq
  constructor
  · rw [hpop]
  · exact hAM

/-- C3 counterexample: the id-lookup/bucket equivalence fails as stated.  A
message whose index functions produce zero keys (reachable without purge) is
registered in `allMessages` by `AddMessage` yet sits in no bucket. -/
theorem idLookup_bucket_iff_counterexample :
    ¬ (∀ (l : List MessageContainer) (q : MessageQueue),
        ReachableW false false l q →
        ∀ id, ((q.allMessages id).isSome = true ↔
          ∃ idx c, c ∈ q.queue idx ∧ c.id = id)) := by
  intro hclaim
  have hder : ReachableW false false ([] ++ [⟨"a", 0, []⟩])
      (addMessage "a" 0 [] emptyQueue) :=
    ReachableW.add "a" 0 [] ReachableW.empty (by decide) (by decide)
  have h := (hclaim _ _ hder "a").mp (by decide)
  obtain ⟨idx, c, hc, -⟩ := h
  exact absurd hc (List.not_mem_nil c)

/-- C3 amended: when every added message carries at least one index key, an
id is in the lookup of a purge-free reachable broker exactly when some bucket
holds its container. -/
theorem idLookup_iff_some_bucket (l : List MessageContainer)
    (q : MessageQueue) (h : ReachableW false true l q) (id : String) :
    (q.allMessages id).isSome = true ↔
      ∃ idx c, c ∈ q.queue idx ∧ c.id = id := by
  constructor
  · intro hs
    obtain ⟨c, hc⟩ := Option.isSome_iff_exists.mp hs
    obtain ⟨hcid, hcl⟩ := (reachable_inv h).1 id c hc
    have ha : q.allMessages c.id = some c := by
      rw [hcid]
      exact hc
    have hne := reachable_nonempty_indexes h rfl c hcl
    obtain ⟨idx, hidx⟩ := List.exists_mem_of_ne_nil _ hne
    refine ⟨idx, c, ?_, hcid⟩
    rw [reachable_exact h rfl idx]
    exact mem_liveBucket_of hcl ha hidx
  · rintro ⟨idx, c, hc, rfl⟩
    have ha := ((reachable_inv h).2 idx c hc).1
    rw [ha]
    rfl

/-- Witness for the amended C3 at a concrete one-message broker. -/
theorem idLookup_iff_some_bucket_witness :
    ((addMessage "a" 1 ["x"] emptyQueue).allMessages "a").isSome = true ↔
      ∃ idx c, c ∈ (addMessage "a" 1 ["x"] emptyQueue).queue idx ∧
        c.id = "a" :=
  idLookup_iff_some_bucket _ _
    (ReachableW.add "a" 1 ["x"] ReachableW.empty (by decide) (by decide)) "a"

end msgqueue

namespace eth1

/-- `upgradeSyncOffset` invokes `SaveSyncOffset` exactly when the sync ended
with a non-empty log list, success, and a last block number above the current
offset. -/
theorem upgrade_saveCalled_iff (saveOk : Bool) (off : Nat)
    (ev : SyncEndedEvent) :
    (upgradeSyncOffset saveOk off ev).saveCalled = true ↔
      (ev.logs ≠ [] ∧ ev.success = true ∧
        off < ev.logs.getLast?.getD 0) := by
  cases hgl : ev.logs.getLast? with
  | none =>
    have hl : ev.logs = [] := List.getLast?_eq_none_iff.mp hgl
    simp [upgradeSyncOffset, hgl, hl]
  | some raw =>
    have hl : ev.logs ≠ [] := by
      intro h0
      rw [h0] at hgl
      cases hgl
    cases hs : ev.success with
    | false => simp [upgradeSyncOffset, hgl, hs]
    | true =>
      by_cases hlt : off < raw
      · cases saveOk <;> simp [upgradeSyncOffset, hgl, hs, hlt, hl]
      · simp [upgradeSyncOffset, hgl, hs, hlt, hl]

/-- `upgradeSyncOffset` returns an error exactly when it invoked a failing
`SaveSyncOffset`. -/
theorem upgrade_errored_iff (saveOk : Bool) (off : Nat)
    (ev : SyncEndedEvent) :
    (upgradeSyncOffset saveOk off ev).errored = true ↔
      ((upgradeSyncOffset saveOk off ev).saveCalled = true ∧
        saveOk = false) := by
  cases hgl : ev.logs.getLast? with
  | none => simp [upgradeSyncOffset, hgl]
  | some raw =>
    cases hs : ev.success with
    | false => simp [upgradeSyncOffset, hgl, hs]
    | true =>
      by_cases hlt : off < raw
      · cases saveOk <;> simp [upgradeSyncOffset, hgl, hs, hlt]
      · simp [upgradeSyncOffset, hgl, hs, hlt]

/-- C4: within an invocation whose registration and client sync succeeded and
that does not re-enter (the current head is unavailable or does not exceed
the determined offset), `SaveSyncOffset` is invoked if and only if no queued
handler errored, `SyncEnded.logs` is non-empty, `SyncEnded.success` holds and
the last log's block number exceeds the current offset; and whenever any
handler errored the invocation returns the single aggregated failure, never
reaching the offset upgrade. -/
theorem save_sync_offset_iff (i : SyncInput) (hreg : i.regOk = true)
    (hsync : i.syncOk = true)
    (hnr : ∀ hd, i.currentBlock = some hd →
      hd ≤ (determineSyncOffset i.stored i.getErr i.provided).getD 0) :
    ((∃ r, syncEth1Events i = .upgraded r ∧ r.saveCalled = true) ↔
      (i.handlerErrs = [] ∧ i.ended.logs ≠ [] ∧ i.ended.success = true ∧
        (determineSyncOffset i.stored i.getErr i.provided).getD 0 <
          i.ended.logs.getLast?.getD 0)) ∧
    (i.handlerErrs ≠ [] →
      syncEth1Events i = .handlerFailed ∧
        ∀ r, syncEth1Events i ≠ .upgraded r) := by
  cases he : i.handlerErrs with
  | cons e rest =>
    have hrun : syncEth1Events i = .handlerFailed := by
      simp [syncEth1Events, hreg, hsync, he]
    constructor
    · rw [hrun]
      simp [he]
    · intro hne
      refine ⟨hrun, fun r hr => ?_⟩
      rw [hrun] at hr
      cases hr
  | nil =>
    have hrun : syncEth1Events i = .upgraded (upgradeSyncOffset i.saveOk
        ((determineSyncOffset i.stored i.getErr i.provided).getD 0)
        i.ended) := by
      cases hcb : i.currentBlock with
      | none => simp [syncEth1Events, hreg, hsync, he, hcb]
      | some hd =>
        have hle := hnr hd hcb
        simp [syncEth1Events, hreg, hsync, he, hcb, Nat.not_lt.mpr hle]
    constructor
    · rw [hrun]
      constructor
      · rintro ⟨r, hr, hsave⟩
        obtain rfl : upgradeSyncOffset i.saveOk
            ((determineSyncOffset i.stored i.getErr i.provided).getD 0)
            i.ended = r := by
          cases hr
          rfl
        exact ⟨rfl, (upgrade_saveCalled_iff _ _ _).mp hsave⟩
      · rintro ⟨-, h1, h2, h3⟩
        exact ⟨_, rfl, (upgrade_saveCalled_iff _ _ _).mpr ⟨h1, h2, h3⟩⟩
    · intro hne
      exact absurd rfl hne

/-- Witness for C4: a concrete non-re-entering invocation with one synced log
above the stored offset; the save happens and the equivalence instantiates. -/
theorem save_sync_offset_iff_witness :
    (∃ r, syncEth1Events
        ⟨true, some (some 10), false, none, true, [], ⟨[12], true⟩,
          some 5, true⟩ = .upgraded r ∧ r.saveCalled = true) ↔
      (([] : List String) = [] ∧ ([12] : List Nat) ≠ [] ∧ true = true ∧
        (determineSyncOffset (some (some 10)) false none).getD 0 <
          ([12] : List Nat).getLast?.getD 0) :=
  (save_sync_offset_iff
    ⟨true, some (some 10), false, none, true, [], ⟨[12], true⟩, some 5, true⟩
    rfl rfl (fun hd hhd => by cases hhd; decide)).1

/-- C5 counterexample: with determined offset 5, last synced block 9 and head
10, the invocation recurses passing offset 5 — not an updated offset — and
persists nothing first; and with the head unavailable and a failing save, the
invocation returns an error rather than exiting cleanly. -/
theorem sync_reentry_counterexample :
    syncEth1Events
        ⟨true, some (some 5), false, none, true, [], ⟨[9], true⟩,
          some 10, true⟩ = .recursed (some 5) ∧
    (5 : Nat) ≠ 9 ∧ (5 : Nat) ≠ 10 ∧
    (∃ r, syncEth1Events
        ⟨true, some (some 5), false, none, true, [], ⟨[9], true⟩,
          none, false⟩ = .upgraded r ∧ r.errored = true) :=
  ⟨by decide, by decide, by decide, ⟨⟨true, none, true⟩, by decide, rfl⟩⟩

/-- C5 amended: after a drain with no handler errors the invocation queries
the head; if the head exceeds the determined offset it makes exactly one
tail-recursive call, passing the same non-updated offset and persisting
nothing first; otherwise — including the head-unavailable case, which only
warns — it proceeds to the offset upgrade, whose result errors only when a
save was attempted with failing storage. -/
theorem sync_reentry_amended (i : SyncInput) (hreg : i.regOk = true)
    (hsync : i.syncOk = true) (hhe : i.handlerErrs = []) :
    (∀ hd, i.currentBlock = some hd →
      (determineSyncOffset i.stored i.getErr i.provided).getD 0 < hd →
      syncEth1Events i =
        .recursed (determineSyncOffset i.stored i.getErr i.provided)) ∧
    (∀ hd, i.currentBlock = some hd →
      ¬ (determineSyncOffset i.stored i.getErr i.provided).getD 0 < hd →
      syncEth1Events i = .upgraded (upgradeSyncOffset i.saveOk
        ((determineSyncOffset i.stored i.getErr i.provided).getD 0)
        i.ended)) ∧
    (i.currentBlock = none →
      syncEth1Events i = .upgraded (upgradeSyncOffset i.saveOk
        ((determineSyncOffset i.stored i.getErr i.provided).getD 0)
        i.ended) ∧
      ((upgradeSyncOffset i.saveOk
          ((determineSyncOffset i.stored i.getErr i.provided).getD 0)
          i.ended).errored = true → i.saveOk = false)) := by
  refine ⟨?_, ?_, ?_⟩
  · intro hd hcb hlt
    simp [syncEth1Events, hreg, hsync, hhe, hcb, hlt]
  · intro hd hcb hlt
    simp [syncEth1Events, hreg, hsync, hhe, hcb, hlt]
  · intro hcb
    refine ⟨by simp [syncEth1Events, hreg, hsync, hhe, hcb], fun herr => ?_⟩
    exact ((upgrade_errored_iff _ _ _).mp herr).2

/-- Witness for the amended C5: the two concrete runs of the counterexample,
re-derived through the amended theorem. -/
theorem sync_reentry_amended_witness :
    syncEth1Events
        ⟨true, some (some 5), false, none, true, [], ⟨[9], true⟩,
          some 10, true⟩ =
      .recursed (determineSyncOffset (some (some 5)) false none) ∧
    syncEth1Events
        ⟨true, some (some 5), false, none, true, [], ⟨[9], true⟩,
          none, false⟩ =
      .upgraded (upgradeSyncOffset false
        ((determineSyncOffset (some (some 5)) false none).getD 0)
        ⟨[9], true⟩) :=
  ⟨(sync_reentry_amended
      ⟨true, some (some 5), false, none, true, [], ⟨[9], true⟩,
        some 10, true⟩ rfl rfl rfl).1 10 rfl (by decide),
   ((sync_reentry_amended
      ⟨true, some (some 5), false, none, true, [], ⟨[9], true⟩,
        none, false⟩ rfl rfl rfl).2.2 rfl).1⟩

/-- C10: `determineSyncOffset` prefers a stored non-nil offset over the
provided one; the provided offset is used exactly when storage has none
(not found, or found nil); and the parsed genesis constant `0x4e706f` is
used exactly when both are absent — for any answer of the storage error
flag. -/
theorem determine_sync_offset_priority (v w : Nat) (ge : Bool) :
    determineSyncOffset (some (some v)) ge (some w) = some v ∧
    determineSyncOffset (some (some v)) ge none = some v ∧
    determineSyncOffset none ge (some w) = some w ∧
    determineSyncOffset (some none) ge (some w) = some w ∧
    determineSyncOffset none ge none = defaultSyncOffset ∧
    determineSyncOffset (some none) ge none = defaultSyncOffset ∧
    defaultSyncOffset = some 5140591 :=
  ⟨rfl, rfl, rfl, rfl, rfl, rfl, by decide⟩

end eth1

namespace validatorstorage

/-- Ceiling of a natural number divided by three, as a natural division. -/
theorem ceil_div_three (n : ℕ) :
    ⌈((n : ℚ)) / 3⌉ = (((n + 2) / 3 : ℕ) : ℤ) := by
  have h3 : (0 : ℚ) < 3 := by norm_num
  obtain ⟨m, hm⟩ : ∃ m, (n + 2) / 3 = m := ⟨_, rfl⟩
  rw [hm]
  have hle : 3 * m ≤ n + 2 := by omega
  have hle2 : n ≤ 3 * m := by omega
  have hc1 : 3 * ((m : ℕ) : ℚ) ≤ ((n : ℚ)) + 2 := by
    exact_mod_cast hle
  have hc2 : ((n : ℚ)) ≤ 3 * ((m : ℕ) : ℚ) := by
    exact_mod_cast hle2
  rw [Int.ceil_eq_iff]
  constructor
  · rw [lt_div_iff₀ h3]
    push_cast
    linarith
  · rw [div_le_iff₀ h3]
    push_cast
    linarith

/-- C7: `ThresholdSize` and `PartialThresholdSize` are the exact integer
ceilings of `2n/3` and `n/3` over the committee size `n`, with natural
closed forms `(2n+2)/3` and `(n+2)/3`; in particular a committee of four
yields 3 and 2. -/
theorem threshold_sizes (s : Share) :
    s.thresholdSize = Int.ceil ((2 * s.committeeSize : ℚ) / 3) ∧
    s.partialThresholdSize = Int.ceil ((s.committeeSize : ℚ) / 3) ∧
    s.thresholdSize = (((2 * s.committeeSize + 2) / 3 : ℕ) : ℤ) ∧
    s.partialThresholdSize = (((s.committeeSize + 2) / 3 : ℕ) : ℤ) ∧
    (s.committeeSize = 4 →
      s.thresholdSize = 3 ∧ s.partialThresholdSize = 2) := by
  have e1 : ((s.committeeSize : ℚ)) * 2 / 3 =
      ((2 * s.committeeSize : ℕ) : ℚ) / 3 := by
    push_cast
    ring
  have e2 : ((s.committeeSize : ℚ)) * 1 / 3 =
      ((s.committeeSize : ℕ) : ℚ) / 3 := by
    ring
  have h1 : s.thresholdSize = (((2 * s.committeeSize + 2) / 3 : ℕ) : ℤ) := by
    show Int.ceil (((s.committeeSize : ℚ)) * 2 / 3) = _
    rw [e1, ceil_div_three]
  have h2 : s.partialThresholdSize =
      (((s.committeeSize + 2) / 3 : ℕ) : ℤ) := by
    show Int.ceil (((s.committeeSize : ℚ)) * 1 / 3) = _
    rw [e2, ceil_div_three]
  refine ⟨?_, ?_, h1, h2, ?_⟩
  · show Int.ceil (((s.committeeSize : ℚ)) * 2 / 3) = _
    rw [show ((2 * s.committeeSize : ℚ)) / 3 =
        ((s.committeeSize : ℚ)) * 2 / 3 from by ring]
  · show Int.ceil (((s.committeeSize : ℚ)) * 1 / 3) = _
    rw [show ((s.committeeSize : ℚ)) / 3 =
        ((s.committeeSize : ℚ)) * 1 / 3 from by ring]
  · intro h4
    rw [h1, h2, h4]
    exact ⟨by norm_num, by norm_num⟩

/-- Witness for C7 on a concrete committee of four operators. -/
theorem threshold_sizes_witness :
    (⟨1, [], [], [(1, ⟨1, [], []⟩), (2, ⟨2, [], []⟩), (3, ⟨3, [], []⟩),
        (4, ⟨4, [], []⟩)], none⟩ : Share).thresholdSize = 3 ∧
    (⟨1, [], [], [(1, ⟨1, [], []⟩), (2, ⟨2, [], []⟩), (3, ⟨3, [], []⟩),
        (4, ⟨4, [], []⟩)], none⟩ : Share).partialThresholdSize = 2 :=
  (threshold_sizes _).2.2.2.2 rfl

/-- Copying each committee entry field by field is the identity. -/
theorem map_node_copy_id (L : List (Nat × Node)) :
    L.map (fun kn => (kn.1, (⟨kn.2.ibftId, kn.2.pk, kn.2.sk⟩ : Node))) =
      L := by
  induction L with
  | nil => rfl
  | cons kn L ih =>
    rcases kn with ⟨k, ⟨a, b, c⟩⟩
    simp [ih]

/-- `Deserialize` inverts `Serialize` on the stored key/value pair of any
share. -/
theorem deserialize_serialize (s : Share) :
    Share.deserialize ⟨s.publicKey, s.serialize⟩ = some s := by
  rcases s with ⟨nid, pk, sk, comm, md⟩
  simp only [Share.serialize, Share.deserialize]
  rw [map_node_copy_id]
  cases sk with
  | nil => rfl
  | cons b bs => simp

/-- C8: deserializing the stored pair written for a share succeeds and
returns a share equal to it in every field (node id, public key, share key,
committee, metadata) — with metadata present or absent and the share key
present or empty. -/
theorem share_roundtrip (s : Share) :
    ∃ s2, Share.deserialize ⟨s.publicKey, s.serialize⟩ = some s2 ∧
      s2.nodeID = s.nodeID ∧ s2.publicKey = s.publicKey ∧
      s2.shareKey = s.shareKey ∧ s2.committee = s.committee ∧
      s2.metadata = s.metadata :=
  ⟨s, deserialize_serialize s, rfl, rfl, rfl, rfl, rfl⟩

/-- A share fetched by `getUnsafe` carries the lookup key as its public key
(`Deserialize` reads the public key off the storage key). -/
theorem getUnsafe_publicKey {db : DB} {key : List Nat} {s : Share}
    (h : getUnsafe db key = some s) : s.publicKey = key := by
  unfold getUnsafe at h
  cases hdb : db key with
  | none =>
    rw [hdb] at h
    cases h
  | some v =>
    rw [hdb] at h
    simp only [Share.deserialize] at h
    obtain rfl := Option.some.inj h
    rfl

/-- C9 counterexample: on an empty store, `UpdateValidatorMetadata` succeeds
(it returns no error when the key is not found) yet `GetValidatorShare`
afterwards returns no share at all, let alone one carrying the new
metadata. -/
theorem update_metadata_not_found_counterexample :
    getValidatorShare
        (updateValidatorMetadata (fun _ => none) [1] (some ⟨1, 2, 3, 4⟩))
        [1] = none ∧
    ¬ ∃ s : Share,
      getValidatorShare
          (updateValidatorMetadata (fun _ => none) [1] (some ⟨1, 2, 3, 4⟩))
          [1] = some s ∧
        s.metadata = some ⟨1, 2, 3, 4⟩ := by
  refine ⟨rfl, ?_⟩
  rintro ⟨s, hs, -⟩
  rw [show getValidatorShare
      (updateValidatorMetadata (fun _ => none) [1] (some ⟨1, 2, 3, 4⟩)) [1] =
      none from rfl] at hs
  cases hs

/-- C9 amended: when the store holds a share under `pk`,
`UpdateValidatorMetadata(pk, m)` followed by `GetValidatorShare(pk)` returns
that share with its metadata replaced by `m` and every other field
unchanged. -/
theorem update_metadata_get (db : DB) (key : List Nat)
    (m : Option ValidatorMetadata) (s : Share)
    (h : getValidatorShare db key = some s) :
    getValidatorShare (updateValidatorMetadata db key m) key =
      some { s with metadata := m } := by
  have h2 : getUnsafe db key = some s := h
  have hpk : s.publicKey = key := getUnsafe_publicKey h2
  subst hpk
  have hupd : updateValidatorMetadata db s.publicKey m =
      saveUnsafe db { s with metadata := m } := by
    unfold updateValidatorMetadata
    rw [h2]
  rw [hupd]
  show getUnsafe (saveUnsafe db { s with metadata := m }) s.publicKey = _
  unfold getUnsafe
  have hdb2 : saveUnsafe db { s with metadata := m } s.publicKey =
      some (Share.serialize { s with metadata := m }) := by
    unfold saveUnsafe
    exact if_pos rfl
  rw [hdb2]
  exact deserialize_serialize { s with metadata := m }

/-- Witness for the amended C9: one stored share, updated, then fetched. -/
theorem update_metadata_get_witness :
    getValidatorShare
        (updateValidatorMetadata
          (saveUnsafe (fun _ => none) ⟨7, [1], [2], [], none⟩) [1]
          (some ⟨1, 2, 3, 4⟩)) [1] =
      some ⟨7, [1], [2], [], some ⟨1, 2, 3, 4⟩⟩ := by
  have h : getValidatorShare
      (saveUnsafe (fun _ => none) ⟨7, [1], [2], [], none⟩) [1] =
      some ⟨7, [1], [2], [], none⟩ := by decide
  exact update_metadata_get _ _ _ _ h

end validatorstorage

namespace p2p

/-- C6 counterexample: with `start = 3` and `limit = 8` the wait intervals of
`WaitForMinPeers` run 3, 6, 4 — the third interval is `12 mod 8 = 4`, not
`min(2·6, 8) = 8` as the claimed recurrence demands. -/
theorem backoff_min_counterexample :
    waitIntervals 3 8 false 1 = some 6 ∧
    waitIntervals 3 8 false 2 = some 4 ∧
    min (2 * 6) 8 = 8 ∧ (4 : Nat) ≠ 8 := by
  refine ⟨by decide, by decide, by decide, by decide⟩

/-- C6 amended: each successive wait interval is `(2·previous) mod limit`,
reset to `start` when that remainder is zero; below the limit this is plain
doubling; and with `stop_at_limit` set the loop returns an error exactly
when the doubled interval equals the limit — in particular one more waiting
iteration then fails fast. -/
theorem backoff_mod_characterization (start limit prev : Nat) (stop : Bool)
    (hl : 0 < limit) :
    (nextInterval start limit prev stop = none ↔
      (stop = true ∧ prev * 2 = limit)) ∧
    (¬ (stop = true ∧ prev * 2 = limit) →
      nextInterval start limit prev stop =
        some (if prev * 2 % limit = 0 then start else prev * 2 % limit)) ∧
    (0 < prev → prev * 2 < limit →
      nextInterval start limit prev stop = some (prev * 2)) ∧
    (∀ minPeers n sched, n < minPeers → stop = true → prev * 2 = limit →
      waitForMinPeers minPeers start limit stop (n :: sched) prev =
        .errLimit) := by
  refine ⟨?_, ?_, ?_, ?_⟩
  · by_cases hc : stop = true ∧ prev * 2 = limit <;>
      simp [nextInterval, hc]
  · intro hc
    simp [nextInterval, hc]
  · intro hp hlt
    have hc : ¬ (stop = true ∧ prev * 2 = limit) := by
      rintro ⟨-, he⟩
      omega
    have hm : prev * 2 % limit = prev * 2 := Nat.mod_eq_of_lt hlt
    simp [nextInterval, hc, hm]
    omega
  · intro minPeers n sched hn hstop heq
    have hni : nextInterval start limit prev stop = none := by
      simp [nextInterval, hstop, heq]
    have hno : ¬ minPeers ≤ n := by omega
    simp [waitForMinPeers, hno, hni]

/-- Witness for the amended C6: below the limit the interval doubles
(3 to 6 with limit 8), and doubling onto the limit with `stop_at_limit`
errors (4 doubles to 8). -/
theorem backoff_mod_characterization_witness :
    nextInterval 3 8 3 true = some 6 ∧ nextInterval 3 8 4 true = none :=
  ⟨(backoff_mod_characterization 3 8 3 true (by decide)).2.2.1 (by decide)
      (by decide),
   (backoff_mod_characterization 3 8 4 true (by decide)).1.mpr
      ⟨rfl, by decide⟩⟩

end p2p

end SSV
